import Mathlib

/-!
Verification development for the hexdump repository (flier/hexdump).

The definitions below are a shallow embedding of the Go sources:
  - src/style.go   : the style engine (DisplayStyle, padding, formatGroup,
                     formatGroups, formatLine, the formatValues templates)
  - the formatter  : Formatter.FormatLine, formatOffset, formatContent,
                     formatChars, charTable, spaces
  - src/dump.go    : the streaming Dumper (Write, Flush, flushLines,
                     flushLine, init) and the Bytes entry point
  - the color file : initColor and the once-latch behaviour of Dumper.init

Go byte slices are modelled as List Nat (each element below 256 where it
matters); machine integers are modelled as Nat, since every quantity the
claims touch (offsets, widths, lengths) is non-negative in every reachable
state of the program.  Fallible operations return Option; none models a
runtime panic or an io error, as noted at each definition.
-/

namespace Hexdump

/-! ## Style engine (src/style.go) -/

/-- The display style of binary content (src/style.go, the DisplayStyle
constants, iota values 0..6).  There are seven defined variants. -/
inductive DisplayStyle where
  | styleCanonical
  | styleOneByteChar
  | styleOneByteHex
  | styleOneByteOctal
  | styleTwoBytesDec
  | styleTwoBytesHex
  | styleTwoBytesOctal
deriving DecidableEq, Repr, Inhabited

/-- Byte order (encoding/binary); native endianness is one of these two,
so it is modelled by quantifying over both. -/
inductive ByteOrder where
  | little
  | big
deriving DecidableEq, Repr, Inhabited

/-- order.Uint16 applied to the first two bytes of a group. -/
def ByteOrder.uint16 (o : ByteOrder) (b0 b1 : Nat) : Nat :=
  match o with
  | .little => b0 + 256 * b1
  | .big => b1 + 256 * b0

/-- Go unicode.IsPrint restricted to Latin-1 code points, transcribed from
the properties table in the Go standard library (unicode/graphic.go):
printable are 0x20..0x7e and 0xa1..0xff except 0xad (soft hyphen). -/
def isPrint (c : Nat) : Bool :=
  (0x20 ≤ c && c ≤ 0x7e) || (0xa1 ≤ c && c ≤ 0xff && c ≠ 0xad)

/-- Lower-case digit character for bases up to 16, as fmt uses. -/
def digitChar (n : Nat) : Char :=
  if n < 10 then Char.ofNat (48 + n) else Char.ofNat (87 + n)

/-- Digits of n in the given base, most significant first; the first
argument is fuel (n + 1 is always enough for base at least 2). -/
def natDigits (base : Nat) : Nat → Nat → List Char
  | 0, _ => []
  | fuel + 1, n =>
    if n < base then [digitChar n]
    else natDigits base fuel (n / base) ++ [digitChar (n % base)]

/-- Sprintf of a number in the given base, zero padded on the left to w
digits, as the %%0wx, %%0wo, %%0wd verbs render non-negative values. -/
def fmtRad (base w n : Nat) : String :=
  let ds := natDigits base (n + 1) n
  ⟨List.replicate (w - ds.length) '0' ++ ds⟩

/-- The formatValues templates of src/style.go, one rendering function per
style (Sprintf with the map entries "%02x", "  %c", "%02x", "%03o",
"  %05d", "   %04x", " %06o"). -/
def DisplayStyle.formatValue (s : DisplayStyle) (v : Nat) : String :=
  match s with
  | .styleCanonical => fmtRad 16 2 v
  | .styleOneByteChar => "  " ++ String.singleton (Char.ofNat v)
  | .styleOneByteHex => fmtRad 16 2 v
  | .styleOneByteOctal => fmtRad 8 3 v
  | .styleTwoBytesDec => "  " ++ fmtRad 10 5 v
  | .styleTwoBytesHex => "   " ++ fmtRad 16 4 v
  | .styleTwoBytesOctal => " " ++ fmtRad 8 6 v

/-- DisplayStyle.padding (src/style.go): n blank tokens sized to the
style; two-byte styles emit n / 2 tokens of seven blanks. -/
def DisplayStyle.padding (s : DisplayStyle) (n : Nat) : List String :=
  match s with
  | .styleCanonical | .styleOneByteHex => List.replicate n "  "
  | .styleOneByteChar | .styleOneByteOctal => List.replicate n "   "
  | .styleTwoBytesHex | .styleTwoBytesOctal | .styleTwoBytesDec =>
    List.replicate (n / 2) "       "

/-- Group size in bytes of each style (one for the four one-byte styles,
two for the three two-byte styles). -/
def DisplayStyle.groupSize (s : DisplayStyle) : Nat :=
  match s with
  | .styleTwoBytesDec | .styleTwoBytesHex | .styleTwoBytesOctal => 2
  | _ => 1

/-- DisplayStyle.formatGroup (src/style.go): renders one group from the
front of b and returns the rest.  none models the index panic on an empty
slice (b[0]); the defined styles never panic on non-empty input.  The
one-byte char style renders a character token only when unicode.IsPrint
holds of the byte, else the one-slot blank padding token; a two-byte style
with a single remaining byte renders that byte alone as the group value. -/
def DisplayStyle.formatGroup (s : DisplayStyle) (b : List Nat) (order : ByteOrder) :
    Option (String × List Nat) :=
  match b with
  | [] => none
  | b0 :: rest =>
    match s with
    | .styleCanonical | .styleOneByteHex | .styleOneByteOctal =>
      some (s.formatValue b0, rest)
    | .styleOneByteChar =>
      if isPrint b0 then some (s.formatValue b0, rest)
      else some ((s.padding 1).getD 0 "", rest)
    | .styleTwoBytesDec | .styleTwoBytesHex | .styleTwoBytesOctal =>
      match rest with
      | [] => some (s.formatValue b0, [])
      | b1 :: rest2 => some (s.formatValue (order.uint16 b0 b1), rest2)

/-- DisplayStyle.formatGroups (src/style.go): repeatedly apply formatGroup
until the slice is exhausted, collecting the tokens.  Written by structural
recursion (the equivalence with iterating formatGroup is the lemma
formatGroups_eq_formatGroup below). -/
def DisplayStyle.formatGroups (s : DisplayStyle) (order : ByteOrder) :
    List Nat → List String
  | [] => []
  | b0 :: rest =>
    if s.groupSize = 2 then
      match rest with
      | [] => [s.formatValue b0]
      | b1 :: rest2 => s.formatValue (order.uint16 b0 b1) :: s.formatGroups order rest2
    else if s = .styleOneByteChar then
      (if isPrint b0 then s.formatValue b0 else (s.padding 1).getD 0 "")
        :: s.formatGroups order rest
    else s.formatValue b0 :: s.formatGroups order rest

/-- The structural formatGroups agrees with one iteration step of the Go
loop through formatGroup. -/
theorem formatGroups_eq_formatGroup (s : DisplayStyle) (order : ByteOrder)
    (b0 : Nat) (rest : List Nat) :
    ∀ t r, s.formatGroup (b0 :: rest) order = some (t, r) →
      s.formatGroups order (b0 :: rest) = t :: s.formatGroups order r := by
  intro t r h
  cases s <;> cases rest <;>
    by_cases hp : isPrint b0 <;>
      simp_all [DisplayStyle.formatGroup, DisplayStyle.formatGroups,
        DisplayStyle.groupSize]

/-- DisplayStyle.formatLine (src/style.go): leading padding for the
skipped slots, one token per group of the payload, trailing padding to the
line width.  In Go the two padding counts are clamped with max(., 0); Nat
subtraction yields the same values. -/
def DisplayStyle.formatLine (s : DisplayStyle) (width skip : Nat)
    (buf : List Nat) (order : ByteOrder) : List String :=
  s.padding skip ++ s.formatGroups order buf ++ s.padding (width - skip - buf.length)

/-- The Go switch in formatGroup dispatches on the raw integer value of
DisplayStyle; values 0..6 are the seven defined variants and every other
value hits the default branch, a panic (modelled as none). -/
def formatGroupGo (s : Int) (b : List Nat) (order : ByteOrder) :
    Option (String × List Nat) :=
  if s = 0 then DisplayStyle.styleCanonical.formatGroup b order
  else if s = 1 then DisplayStyle.styleOneByteChar.formatGroup b order
  else if s = 2 then DisplayStyle.styleOneByteHex.formatGroup b order
  else if s = 3 then DisplayStyle.styleOneByteOctal.formatGroup b order
  else if s = 4 then DisplayStyle.styleTwoBytesDec.formatGroup b order
  else if s = 5 then DisplayStyle.styleTwoBytesHex.formatGroup b order
  else if s = 6 then DisplayStyle.styleTwoBytesOctal.formatGroup b order
  else none

/-! ## Line formatter (Formatter.FormatLine and its helpers)

Color is resolved per session; with color disabled every theme role simply
passes its text through (fatih/color Sprint and SetWriter are identity
when NoColor is set), so the rendering below is the uncolored line text. -/

/-- strings.Repeat of a blank, clamped at zero as in the source (spaces). -/
def spaces (n : Nat) : String :=
  ⟨List.replicate n ' '⟩

/-- The character-sidebar classification inside Formatter.charTable: a byte
keeps its own glyph unless it is at least 0x80 or fails unicode.IsPrint, in
which case it becomes a dot (0x2e). -/
def charGlyph (c : Nat) : Nat :=
  if 0x80 ≤ c || !isPrint c then 0x2e else c

/-- Formatter.charTable: leading blanks for the skipped slots, one glyph
per payload byte, trailing blanks to the line width. -/
def charTable (width skip : Nat) (buf : List Nat) : String :=
  spaces skip ++ ⟨buf.map (fun c => Char.ofNat (charGlyph c))⟩
    ++ spaces (width - skip - buf.length)

/-- The cosmetic halves separator width (groupsSep). -/
def groupsSep : Nat := 8

/-- Formatter.formatContent: a blank before every token, and one extra
blank before every eighth token when the line width exceeds groupsSep. -/
def formatContent (s : DisplayStyle) (width skip : Nat) (buf : List Nat)
    (order : ByteOrder) : String :=
  String.join ((s.formatLine width skip buf order).mapIdx fun i t =>
    " " ++ (if 0 < i ∧ groupsSep < width ∧ i % groupsSep = 0 then " " else "") ++ t)

/-- Formatter.FormatLine: eight hex digits of the offset and a blank, the
content column, two blanks, the character column between bars, newline. -/
def formatLineOut (s : DisplayStyle) (width : Nat) (order : ByteOrder)
    (off skip : Nat) (buf : List Nat) : String :=
  fmtRad 16 8 off ++ " " ++ formatContent s width skip buf order
    ++ "  |" ++ charTable width skip buf ++ "|\n"

/-! ## Streaming dumper (src/dump.go)

The Dumper mutable state that the line-carving logic reads: the internal
byte queue (bytes.Buffer b) and the running count of consumed input bytes
(off).  The session configuration (LineWidth, Start) is passed alongside.
Offsets are Nat: Start, Skip and Length are non-negative in every use the
claims quantify over, and Go int64 arithmetic agrees with Nat there. -/

structure DState where
  buf : List Nat
  off : Nat
deriving DecidableEq, Repr, Inhabited

/-- One emitted line record: absolute offset, leading skip, payload. -/
structure Line where
  offset : Nat
  skip : Nat
  payload : List Nat
deriving DecidableEq, Repr, Inhabited

/-- off / width * width, the largest multiple of width not above off
(the start computation in Dumper.flushLine). -/
def align (width off : Nat) : Nat := off / width * width

/-- Dumper.flushLine: carve one line from the front of the queue.  For a
non-final line the length is the distance from the leading skip to the
line boundary; a final line takes the whole queue.  none models the
io.ReadFull failure (ErrUnexpectedEOF) when the queue holds fewer bytes
than requested; in Go that error also consumes the queued bytes, but the
session aborts there so only the error is observable. -/
def flushLine (width start : Nat) (all : Bool) (s : DState) : Option (Line × DState) :=
  let off := start + s.off
  let skip := off % width
  let length := if all then s.buf.length else width - skip
  if s.buf.length < length then none
  else some (⟨align width off, skip, s.buf.take length⟩,
    ⟨s.buf.drop length, s.off + length⟩)

/-- The eager-emission loop of Dumper.flushLines.  Go computes skip once,
before the loop, and keeps testing that stale value against the shrinking
queue; the loop body is flushLine(false).  The first argument is fuel;
every iteration consumes at least one queued byte when 0 < width, so
queue length + 1 fuel (what flushLines passes) never runs out.  Returned
Bool is the error flag of a failed flushLine. -/
def flushLoop (width start stale : Nat) : Nat → DState → List Line × DState × Bool
  | 0, s => ([], s, false)
  | fuel + 1, s =>
    if 0 < width ∧ width ≤ stale + s.buf.length then
      match flushLine width start false s with
      | none => ([], s, true)
      | some (l, s1) =>
        let r := flushLoop width start stale fuel s1
        (l :: r.1, r.2)
    else ([], s, false)

/-- Dumper.flushLines: run the eager loop with the stale pre-loop skip,
then, when flushing, emit the remaining queue as one final short line
(flushLine(true) never fails: it requests exactly the queue length). -/
def flushLines (width start : Nat) (all : Bool) (s : DState) :
    List Line × DState × Bool :=
  let stale := (start + s.off) % width
  let r := flushLoop width start stale (s.buf.length + 1) s
  if r.2.2 then r
  else if all ∧ 0 < r.2.1.buf.length then
    match flushLine width start true r.2.1 with
    | none => (r.1, r.2.1, true)
    | some (l, s1) => (r.1 ++ [l], s1, false)
  else r

/-- Dumper.Write: append to the queue, then flush every determined line. -/
def write (width start : Nat) (s : DState) (p : List Nat) :
    List Line × DState × Bool :=
  flushLines width start false ⟨s.buf ++ p, s.off⟩

/-- A sequence of Dumper.Write calls; a failed write aborts the session
(its error propagates out of Bytes before Flush is reached). -/
def runWrites (width start : Nat) (s : DState) :
    List (List Nat) → List Line × DState × Bool
  | [] => ([], s, false)
  | c :: cs =>
    let r := write width start s c
    if r.2.2 then r
    else
      let r2 := runWrites width start r.2.1 cs
      (r.1 ++ r2.1, r2.2)

/-- One session: Dumper.init defaults the line width to 16 when unset,
then the Write calls run, then Flush forces the final short line.  The
initial off is the skip count (Bytes sets d.off = d.Skip).  Result: the
emitted line records in order, and whether the session ended in error. -/
def runSession (width start skip0 : Nat) (chunks : List (List Nat)) :
    List Line × Bool :=
  let w := if width = 0 then 16 else width
  let r := runWrites w start ⟨[], skip0⟩ chunks
  if r.2.2 then (r.1, true)
  else
    let rf := flushLines w start true r.2.1
    (r.1 ++ rf.1, rf.2.2)

/-- Bytes (src/dump.go): slice the input by Skip and Length, then one
Write of everything followed by Flush.  none models the out-of-range
slice panics of b[Skip:] and b[:Length]; slices are modelled as values,
so capacity equals length. -/
def bytesDump (input : List Nat) (skip len width start : Nat) :
    Option (List Line × Bool) :=
  if 0 < skip ∧ input.length < skip then none
  else
    let b := if 0 < skip then input.drop skip else input
    let off0 := if 0 < skip then skip else 0
    if 0 < len ∧ b.length < len then none
    else
      let b2 := if 0 < len then b.take len else b
      some (runSession width start off0 [b2])

/-- The rendered text of a session as Bytes produces it: every emitted
line through Formatter.FormatLine, concatenated. -/
def bytesDumpRendered (input : List Nat) (skip len width start : Nat)
    (s : DisplayStyle) (order : ByteOrder) : Option (String × Bool) :=
  (bytesDump input skip len width start).map fun r =>
    (String.join (r.1.map fun l =>
      formatLineOut s (if width = 0 then 16 else width) order l.offset l.skip l.payload),
      r.2)

/-! ## Supporting lemmas: style-engine token counts -/

/-- Two-step list induction matching the group recursion shape. -/
theorem twoStepInduction {P : List Nat → Prop} (h0 : P []) (h1 : ∀ b, P [b])
    (h2 : ∀ b0 b1 rest, P rest → P (b0 :: b1 :: rest)) : ∀ bs, P bs
  | [] => h0
  | [b] => h1 b
  | b0 :: b1 :: rest => h2 b0 b1 rest (twoStepInduction h0 h1 h2 rest)

theorem padding_length (s : DisplayStyle) (n : Nat) :
    (s.padding n).length = if s.groupSize = 2 then n / 2 else n := by
  cases s <;> simp [DisplayStyle.padding, DisplayStyle.groupSize]

theorem formatGroups_length_bounded (s : DisplayStyle) (order : ByteOrder) :
    ∀ n bs, bs.length ≤ n → (s.formatGroups order bs).length =
      (if s.groupSize = 2 then (bs.length + 1) / 2 else bs.length) := by
  intro n
  induction n with
  | zero =>
    intro bs h
    cases bs with
    | nil => simp [DisplayStyle.formatGroups]
    | cons b0 rest => simp at h
  | succ n ih =>
    intro bs h
    cases bs with
    | nil => simp [DisplayStyle.formatGroups]
    | cons b0 rest =>
      cases rest with
      | nil =>
        by_cases hg : s.groupSize = 2
        · simp [DisplayStyle.formatGroups, hg]
        · simp [DisplayStyle.formatGroups, hg]
          split_ifs <;> simp
      | cons b1 rest2 =>
        by_cases hg : s.groupSize = 2
        · have hih := ih rest2 (by simp at h ⊢; omega)
          rw [if_pos hg] at hih
          simp [DisplayStyle.formatGroups, hg, hih]
          omega
        · have hih := ih (b1 :: rest2) (by simp at h ⊢; omega)
          rw [if_neg hg] at hih
          simp only [DisplayStyle.formatGroups, hg, if_false]
          split_ifs <;> simp [hih]

theorem formatGroups_length (s : DisplayStyle) (order : ByteOrder) (bs : List Nat) :
    (s.formatGroups order bs).length =
      if s.groupSize = 2 then (bs.length + 1) / 2 else bs.length :=
  formatGroups_length_bounded s order bs.length bs le_rfl

theorem formatLine_length (s : DisplayStyle) (width skip : Nat) (buf : List Nat)
    (order : ByteOrder) :
    (s.formatLine width skip buf order).length =
      (s.padding skip).length + (s.formatGroups order buf).length
        + (s.padding (width - skip - buf.length)).length := by
  simp [DisplayStyle.formatLine]
  omega

/-! ## Supporting lemmas: the dumper line trace -/

/-- The offsets of ls form the progression base, base + width, ... -/
def progFrom (width base : Nat) (ls : List Line) : Prop :=
  ∀ i, i < ls.length → (ls.getD i default).offset = base + i * width

theorem progFrom_nil (width base : Nat) : progFrom width base [] := by
  intro i hi
  simp at hi

theorem progFrom_cons {width base : Nat} {l : Line} {ls : List Line}
    (hl : l.offset = base) (hls : progFrom width (base + width) ls) :
    progFrom width base (l :: ls) := by
  intro i hi
  cases i with
  | zero => simpa using hl
  | succ j =>
    have := hls j (by simpa using hi)
    simp only [List.getD_cons_succ, this, Nat.succ_mul]
    omega

theorem progFrom_append {width base : Nat} {ls1 ls2 : List Line}
    (h1 : progFrom width base ls1)
    (h2 : progFrom width (base + ls1.length * width) ls2) :
    progFrom width base (ls1 ++ ls2) := by
  intro i hi
  by_cases hlt : i < ls1.length
  · rw [List.getD_append _ _ _ _ hlt]
    exact h1 i hlt
  · have hlen : i - ls1.length < ls2.length := by
      simp at hi
      omega
    rw [List.getD_append_right _ _ _ _ (by omega)]
    have := h2 (i - ls1.length) hlen
    rw [this]
    have hsum : ls1.length + (i - ls1.length) = i := by omega
    calc base + ls1.length * width + (i - ls1.length) * width
        = base + (ls1.length + (i - ls1.length)) * width := by
          rw [Nat.add_mul]
          omega
      _ = base + i * width := by rw [hsum]

theorem align_mul {width : Nat} (hw : 0 < width) (k : Nat) :
    align width (k * width) = k * width := by
  simp [align, Nat.mul_div_cancel _ hw]

/-- A successful non-final flushLine: what the emitted line holds and how
the state advances (the consumed count lands exactly on the next line
boundary in absolute-offset space). -/
theorem flushLine_false_spec {width start : Nat} (hw : 0 < width)
    {s : DState} {l : Line} {s1 : DState}
    (h : flushLine width start false s = some (l, s1)) :
    l.offset = align width (start + s.off)
      ∧ l.skip = (start + s.off) % width
      ∧ l.payload = s.buf.take (width - (start + s.off) % width)
      ∧ s1.buf = s.buf.drop (width - (start + s.off) % width)
      ∧ start + s1.off = align width (start + s.off) + width := by
  have hm : (start + s.off) % width < width := Nat.mod_lt _ hw
  have hd := Nat.div_add_mod (start + s.off) width
  simp only [flushLine, Bool.false_eq_true, if_false] at h
  split at h
  · exact absurd h (by simp)
  · simp only [Option.some.injEq, Prod.mk.injEq] at h
    obtain ⟨hl, hs1⟩ := h
    subst hl
    subst hs1
    refine ⟨rfl, rfl, rfl, rfl, ?_⟩
    simp only [align]
    rw [Nat.mul_comm] at hd
    generalize (start + s.off) / width * width = t at hd ⊢
    omega

/-- flushLine with all set never fails: it takes exactly the queue. -/
theorem flushLine_true_spec (width start : Nat) (s : DState) :
    flushLine width start true s =
      some (⟨align width (start + s.off), (start + s.off) % width, s.buf⟩,
        ⟨[], s.off + s.buf.length⟩) := by
  simp [flushLine]

/-- After a successful non-final flushLine the next absolute offset is an
exact multiple of the width, so its alignment is itself. -/
theorem flushLine_false_align {width start : Nat} (hw : 0 < width)
    {s : DState} {l : Line} {s1 : DState}
    (h : flushLine width start false s = some (l, s1)) :
    align width (start + s1.off) = align width (start + s.off) + width := by
  obtain ⟨-, -, -, -, hoff⟩ := flushLine_false_spec hw h
  rw [hoff]
  show align width ((start + s.off) / width * width + width)
    = align width (start + s.off) + width
  rw [show (start + s.off) / width * width + width
      = ((start + s.off) / width + 1) * width by rw [Nat.add_mul]; omega]
  rw [align_mul hw]
  simp [align, Nat.add_mul]

/-- The eager-emission loop: the lines it emits step through consecutive
line boundaries starting at the alignment of the current absolute offset,
and the consumed count tracks them exactly. -/
theorem flushLoop_spec {width : Nat} (start stale : Nat) (hw : 0 < width) :
    ∀ fuel s,
      progFrom width (align width (start + s.off))
          (flushLoop width start stale fuel s).1
      ∧ ((flushLoop width start stale fuel s).1 = [] →
          (flushLoop width start stale fuel s).2.1 = s)
      ∧ ((flushLoop width start stale fuel s).1 ≠ [] →
          start + (flushLoop width start stale fuel s).2.1.off
            = align width (start + s.off)
              + (flushLoop width start stale fuel s).1.length * width) := by
  intro fuel
  induction fuel with
  | zero =>
    intro s
    exact ⟨by simp [flushLoop, progFrom_nil], by simp [flushLoop], by simp [flushLoop]⟩
  | succ n ih =>
    intro s
    simp only [flushLoop]
    split
    · cases hfl : flushLine width start false s with
      | none =>
        simp only [hfl]
        exact ⟨by simp [progFrom_nil], by simp, by simp⟩
      | some ls1 =>
        obtain ⟨l, s1⟩ := ls1
        obtain ⟨hoff0, -, -, -, hoff⟩ := flushLine_false_spec hw hfl
        have halign := flushLine_false_align hw hfl
        obtain ⟨hprog, hnil, hcons⟩ := ih s1
        simp only [hfl]
        refine ⟨?_, ?_, ?_⟩
        · exact progFrom_cons hoff0 (halign ▸ hprog)
        · intro hc
          simp at hc
        · intro _
          by_cases hemp : (flushLoop width start stale n s1).1 = []
          · have hstate := hnil hemp
            simp only [hemp, hstate, List.length_cons, List.length_nil]
            rw [hoff]
            omega
          · have hrec := hcons hemp
            rw [halign] at hrec
            simp only [List.length_cons]
            rw [hrec, Nat.add_mul, Nat.one_mul]
            omega
    · exact ⟨by simp [progFrom_nil], by simp, by simp⟩

/-- flushLines inherits the loop trace spec; with the final-flush flag the
one extra short line continues the progression, and without it the
consumed count still tracks the emitted lines exactly. -/
theorem flushLines_spec {width : Nat} (start : Nat) (hw : 0 < width)
    (all : Bool) (s : DState) :
    progFrom width (align width (start + s.off)) (flushLines width start all s).1
    ∧ ((flushLines width start all s).1 = [] →
        (flushLines width start all s).2.1 = s)
    ∧ ((flushLines width start all s).1 ≠ [] → all = false →
        start + (flushLines width start all s).2.1.off
          = align width (start + s.off)
            + (flushLines width start all s).1.length * width) := by
  obtain ⟨hprog, hnil, hcons⟩ :=
    flushLoop_spec start ((start + s.off) % width) hw (s.buf.length + 1) s
  simp only [flushLines]
  split
  · exact ⟨hprog, hnil, fun h _ => hcons h⟩
  · split
    · rename_i hcond
      set r := flushLoop width start ((start + s.off) % width) (s.buf.length + 1) s
        with hr
      rw [flushLine_true_spec]
      refine ⟨?_, ?_, ?_⟩
      · refine progFrom_append hprog ?_
        intro i hi
        have hi0 : i = 0 := by
          simpa using hi
        subst hi0
        simp only [List.getD_cons_zero, Nat.zero_mul, Nat.add_zero]
        by_cases hemp : r.1 = []
        · have hstate := hnil hemp
          simp [hstate, hemp]
        · have hrec := hcons hemp
          have hq : start + r.2.1.off
              = ((start + s.off) / width + r.1.length) * width := by
            rw [Nat.add_mul]
            simp only [align] at hrec
            omega
          rw [hq, align_mul hw, Nat.add_mul]
          simp only [align]
      · intro hc
        simp at hc
      · intro _ hfalse
        subst hfalse
        simp at hcond
    · exact ⟨hprog, hnil, fun h _ => hcons h⟩

theorem align_of_exact {width : Nat} (hw : 0 < width) (o k : Nat) :
    align width (align width o + k * width) = align width o + k * width := by
  have h : align width o + k * width = (o / width + k) * width := by
    simp [align, Nat.add_mul]
  rw [h, align_mul hw, Nat.add_mul]

/-- Dumper.Write leaves the trace spec intact: it only appends to the
queue before flushing, and the consumed count is untouched by the append. -/
theorem write_spec {width : Nat} (start : Nat) (hw : 0 < width)
    (s : DState) (p : List Nat) :
    progFrom width (align width (start + s.off)) (write width start s p).1
    ∧ ((write width start s p).1 = [] → (write width start s p).2.1.off = s.off)
    ∧ ((write width start s p).1 ≠ [] →
        start + (write width start s p).2.1.off
          = align width (start + s.off) + (write width start s p).1.length * width) := by
  obtain ⟨hprog, hnil, hcons⟩ := flushLines_spec start hw false ⟨s.buf ++ p, s.off⟩
  refine ⟨hprog, ?_, ?_⟩
  · intro h
    rw [show (write width start s p).2.1 = (⟨s.buf ++ p, s.off⟩ : DState) from hnil h]
  · intro h
    exact hcons h rfl

/-- A sequence of writes emits one progression of line offsets and keeps
the consumed count in lockstep with the number of emitted lines. -/
theorem runWrites_spec {width : Nat} (start : Nat) (hw : 0 < width) :
    ∀ (chunks : List (List Nat)) (s : DState),
      progFrom width (align width (start + s.off)) (runWrites width start s chunks).1
      ∧ ((runWrites width start s chunks).1 = [] →
          (runWrites width start s chunks).2.1.off = s.off)
      ∧ ((runWrites width start s chunks).1 ≠ [] →
          start + (runWrites width start s chunks).2.1.off
            = align width (start + s.off)
              + (runWrites width start s chunks).1.length * width) := by
  intro chunks
  induction chunks with
  | nil =>
    intro s
    exact ⟨by simp [runWrites, progFrom_nil], by simp [runWrites], by simp [runWrites]⟩
  | cons c cs ih =>
    intro s
    obtain ⟨wprog, wnil, wcons⟩ := write_spec start hw s c
    simp only [runWrites]
    split
    · exact ⟨wprog, wnil, fun h => wcons h⟩
    · obtain ⟨iprog, inil, icons⟩ := ih (write width start s c).2.1
      have halign : align width (start + (write width start s c).2.1.off)
          = align width (start + s.off) + (write width start s c).1.length * width := by
        by_cases hemp : (write width start s c).1 = []
        · rw [wnil hemp, hemp]
          simp
        · rw [wcons hemp]
          exact align_of_exact hw _ _
      refine ⟨?_, ?_, ?_⟩
      · exact progFrom_append wprog (halign ▸ iprog)
      · intro h
        simp only [List.append_eq_nil] at h
        rw [inil h.2, wnil h.1]
      · intro hne
        simp only [List.length_append]
        by_cases hemp2 : (runWrites width start (write width start s c).2.1 cs).1 = []
        · have hoff2 := inil hemp2
          rw [hoff2, hemp2]
          by_cases hemp : (write width start s c).1 = []
          · exact absurd (by simp [hemp, hemp2]) hne
          · rw [wcons hemp]
            simp
        · have hrec := icons hemp2
          rw [hrec, halign, Nat.add_mul]
          omega

/-- The full-session line trace: every emitted line offset is the
alignment of start + skip plus its index times the width. -/
theorem runSession_prog {width : Nat} (start skip0 : Nat) (hw : 0 < width)
    (chunks : List (List Nat)) :
    progFrom width (align width (start + skip0)) (runSession width start skip0 chunks).1 := by
  have hw0 : ¬width = 0 := by omega
  obtain ⟨wprog, wnil, wcons⟩ := runWrites_spec start hw chunks ⟨[], skip0⟩
  simp only [runSession, hw0, if_false]
  split
  · exact wprog
  · obtain ⟨fprog, -, -⟩ :=
      flushLines_spec start hw true (runWrites width start ⟨[], skip0⟩ chunks).2.1
    have halign : align width (start + (runWrites width start ⟨[], skip0⟩ chunks).2.1.off)
        = align width (start + skip0)
          + (runWrites width start ⟨[], skip0⟩ chunks).1.length * width := by
      by_cases hemp : (runWrites width start ⟨[], skip0⟩ chunks).1 = []
      · rw [wnil hemp, hemp]
        simp
      · rw [wcons hemp]
        exact align_of_exact hw _ _
    exact progFrom_append wprog (halign ▸ fprog)

/-! ## Color resolution latch (src/dump.go Flush, flushLines, init)

Dumper.init unconditionally runs initColor (the color resolution step,
which recomputes color.NoColor from the mode and environment) and then
nil-guards the remaining fields.  flushLines invokes init through
d.once.Do, which runs it only the first time and marks the latch used;
Dumper.Flush however calls d.init() directly, outside the latch, before
calling flushLines.  Neither path depends on the byte payload, so the
model tracks only the latch flag and the number of initColor runs. -/

structure InitState where
  onceUsed : Bool
  colorInits : Nat
deriving DecidableEq, Repr

/-- Dumper.init: the color resolution step runs on every invocation. -/
def initD (s : InitState) : InitState :=
  { s with colorInits := s.colorInits + 1 }

/-- d.once.Do(d.init): run init only if the latch is fresh, consuming it. -/
def onceDo (s : InitState) : InitState :=
  if s.onceUsed then s else { (initD s) with onceUsed := true }

/-- The public byte-ingestion and flush operations of one session. -/
inductive SessionOp where
  | writeOp
  | flushOp
deriving DecidableEq, Repr

/-- Write calls flushLines, whose first statement is d.once.Do(d.init);
Flush first calls d.init() directly and then flushLines likewise. -/
def stepOp (s : InitState) : SessionOp → InitState
  | .writeOp => onceDo s
  | .flushOp => onceDo (initD s)

/-- A session starts with a fresh latch and zero resolutions. -/
def runOps (ops : List SessionOp) : InitState :=
  ops.foldl stepOp ⟨false, 0⟩

/-- Number of Flush calls in a session. -/
def countFlush (ops : List SessionOp) : Nat :=
  (ops.filter fun o => o = .flushOp).length

theorem stepOp_onceUsed (s : InitState) (o : SessionOp) :
    (stepOp s o).onceUsed = true ∨ (s.onceUsed = false ∧ o = .writeOp) := by
  cases o <;> simp [stepOp, onceDo, initD] <;> split <;> simp_all

theorem foldl_colorInits_used :
    ∀ (ops : List SessionOp) (s : InitState), s.onceUsed = true →
      (ops.foldl stepOp s).colorInits = s.colorInits + countFlush ops := by
  intro ops
  induction ops with
  | nil => intro s _; simp [countFlush]
  | cons o rest ih =>
    intro s hs
    cases o with
    | writeOp =>
      have hstep : stepOp s .writeOp = s := by
        simp [stepOp, onceDo, hs]
      have hr := ih s hs
      simp [countFlush, List.filter_cons] at hr ⊢
      simp [hstep, hr]
    | flushOp =>
      have hstep : stepOp s .flushOp = { s with colorInits := s.colorInits + 1 } := by
        simp [stepOp, onceDo, initD, hs]
      have hr := ih { s with colorInits := s.colorInits + 1 } (by simp [hs])
      simp [countFlush, List.filter_cons] at hr ⊢
      simp [hstep, hr]
      omega

theorem formatGroup_cons_isSome (s : DisplayStyle) (b0 : Nat) (rest : List Nat)
    (order : ByteOrder) :
    (s.formatGroup (b0 :: rest) order).isSome = true := by
  cases s <;> cases rest <;>
    simp [DisplayStyle.formatGroup] <;> split_ifs <;> simp

/-! ## Claim theorems -/

/-- C1 (code_bug evidence): the alignment invariant fails on this code.
With line width 16, start offset 4, skip 0 and 24 total input bytes, one
Write of all 24 bytes yields a different session result (one emitted line
and an error) than two Writes of 12 bytes each (two lines, no error):
flushLines computes the leading skip once, before its loop, so after the
first carved line it tests the stale skip against the shrunken queue,
calls flushLine for a full line with only 12 bytes buffered, and the
io.ReadFull inside fails with ErrUnexpectedEOF. -/
theorem chunking_affects_output :
    runSession 16 4 0 [List.replicate 24 0]
      ≠ runSession 16 4 0 [List.replicate 12 0, List.replicate 12 0] := by
  decide

/-- C2 counterexample: for the two-byte hex style with line width 4,
leading skip 1 and a two-byte payload (1 + 2 ≤ 4), the line renders one
token, not ceil(4 / 2) = 2: the odd skip loses a token slot because
padding emits skip / 2 tokens rounding down. -/
theorem tokenCount_claim_false :
    ¬((DisplayStyle.styleTwoBytesHex.formatLine 4 1 [0, 0] ByteOrder.little).length
        = (4 + 2 - 1) / 2) := by
  decide

/-- C2 (amended): the rendered token count equals
ceil(lineWidth / groupSize) for every one-byte style unconditionally,
and for two-byte styles whenever the width is even and the leading skip
is even or the line is full (leadingSkip + payload = lineWidth) — which
covers every line the dumper emits with an even width; an odd skip on a
short line or an odd width can fall below the bound. -/
theorem tokenCount_invariant (s : DisplayStyle) (width skip : Nat)
    (buf : List Nat) (order : ByteOrder)
    (hle : skip + buf.length ≤ width)
    (hside : s.groupSize = 1
      ∨ (width % 2 = 0 ∧ (skip % 2 = 0 ∨ skip + buf.length = width))) :
    (s.formatLine width skip buf order).length
      = (width + s.groupSize - 1) / s.groupSize := by
  have hgs : s.groupSize = 1 ∨ s.groupSize = 2 := by
    cases s <;> simp [DisplayStyle.groupSize]
  rw [formatLine_length, padding_length, padding_length, formatGroups_length]
  rcases hgs with hg | hg
  · rw [hg]
    norm_num
    omega
  · rw [hg]
    rw [hg] at hside
    norm_num
    rcases hside with h | ⟨hwid, h⟩
    · omega
    · rcases h with h | h <;> omega

theorem tokenCount_invariant_witness :
    (4 + (List.replicate 5 0).length ≤ 16
      ∧ (DisplayStyle.styleTwoBytesHex.groupSize = 1
          ∨ (16 % 2 = 0 ∧ (4 % 2 = 0 ∨ 4 + (List.replicate 5 0).length = 16))))
    ∧ (DisplayStyle.styleTwoBytesHex.formatLine 16 4 (List.replicate 5 0)
          ByteOrder.little).length
        = (16 + DisplayStyle.styleTwoBytesHex.groupSize - 1)
            / DisplayStyle.styleTwoBytesHex.groupSize :=
  ⟨⟨by decide, by decide⟩,
    tokenCount_invariant DisplayStyle.styleTwoBytesHex 16 4 (List.replicate 5 0)
      ByteOrder.little (by decide) (by decide)⟩

/-- C3 counterexample: byte 0xa1 is not ASCII, yet the one-byte char
style renders it as a character token: the source tests only
unicode.IsPrint on the byte as a code point, with no ASCII bound, and
0xa1 is a printable Latin-1 code point. -/
theorem charStyle_ascii_claim_false :
    ((DisplayStyle.styleOneByteChar.formatGroup [0xa1] ByteOrder.little).map Prod.fst
        = some ("  " ++ String.singleton (Char.ofNat 0xa1)))
      ∧ ¬((0xa1 : Nat) < 0x80) := by
  decide

set_option maxRecDepth 4000 in
/-- C3 (amended): for every byte, the one-byte char style renders the
character token exactly when the byte passes the general printable test
on its code point (Go unicode.IsPrint, which also accepts the printable
Latin-1 range 0xa1..0xff except 0xad — ASCII is not required); every
byte failing the test renders as the three-blank padding slot, and every
token is exactly three characters wide either way. -/
theorem charStyle_token : ∀ (b : Fin 256) (order : ByteOrder),
    (((DisplayStyle.styleOneByteChar.formatGroup [b.val] order).map Prod.fst
        = some ("  " ++ String.singleton (Char.ofNat b.val)))
      ↔ isPrint b.val = true)
    ∧ (isPrint b.val = false →
        (DisplayStyle.styleOneByteChar.formatGroup [b.val] order).map Prod.fst
          = some "   ")
    ∧ (DisplayStyle.styleOneByteChar.formatGroup [b.val] order).map
        (fun p => p.1.length) = some 3 := by
  intro b order
  cases order <;> revert b <;> decide

theorem charStyle_token_witness :
    (DisplayStyle.styleOneByteChar.formatGroup [0x07] ByteOrder.little).map Prod.fst
      = some "   " :=
  (charStyle_token 0x07 ByteOrder.little).2.1 (by decide)

/-- C5: for every two-byte style and every byte order, a payload with a
single trailing byte after an even-length front part renders it as one final
token whose value is the byte alone (the high byte absent), with no
error: formatGroups on the odd tail appends exactly the token of the
lone byte value. -/
theorem twoByteOddTail (s : DisplayStyle) (order : ByteOrder)
    (bs : List Nat) (b : Nat) (hg : s.groupSize = 2) (hev : bs.length % 2 = 0) :
    s.formatGroups order (bs ++ [b])
      = s.formatGroups order bs ++ [s.formatValue b] := by
  induction bs using twoStepInduction with
  | h0 => simp [DisplayStyle.formatGroups, hg]
  | h1 b0 => simp at hev
  | h2 b0 b1 rest ih =>
    have hev2 : rest.length % 2 = 0 := by
      simp at hev
      omega
    simp only [List.cons_append, DisplayStyle.formatGroups, hg, if_pos,
      List.append_eq]
    rw [ih hev2]

theorem twoByteOddTail_witness :
    (DisplayStyle.styleTwoBytesDec.groupSize = 2 ∧ ([1, 2] : List Nat).length % 2 = 0)
    ∧ DisplayStyle.styleTwoBytesDec.formatGroups ByteOrder.little ([1, 2] ++ [3])
        = DisplayStyle.styleTwoBytesDec.formatGroups ByteOrder.little [1, 2]
          ++ [DisplayStyle.styleTwoBytesDec.formatValue 3] :=
  ⟨⟨by decide, by decide⟩,
    twoByteOddTail DisplayStyle.styleTwoBytesDec ByteOrder.little [1, 2] 3
      (by decide) (by decide)⟩

/-- C6: over a whole session (any write chunking followed by the final
flush), the i-th emitted line has absolute offset
floor((start + skip) / width) * width + i * width: the first line offset
is the largest multiple of the width not exceeding start + skip, and
consecutive line offsets differ by exactly the width. -/
theorem dumper_offset_progression (width start skip0 : Nat)
    (chunks : List (List Nat)) (hw : 0 < width) (i : Nat)
    (hi : i < (runSession width start skip0 chunks).1.length) :
    ((runSession width start skip0 chunks).1.getD i default).offset
      = (start + skip0) / width * width + i * width :=
  runSession_prog start skip0 hw chunks i hi

theorem dumper_offset_progression_witness :
    (0 < 16 ∧ 1 < (runSession 16 4 0 [List.replicate 20 0]).1.length)
    ∧ ((runSession 16 4 0 [List.replicate 20 0]).1.getD 1 default).offset
        = (4 + 0) / 16 * 16 + 1 * 16 :=
  ⟨⟨by decide, by decide⟩,
    dumper_offset_progression 16 4 0 [List.replicate 20 0] (by decide) 1 (by decide)⟩

set_option maxRecDepth 4000 in
/-- C7: the character column maps each payload byte positionally through
charGlyph, and for every byte the glyph is the byte itself exactly when
the byte is printable ASCII (below 0x80 and passing the printable test),
and a literal dot (0x2e) otherwise. -/
theorem charColumn_roundTrip :
    (∀ (width skip : Nat) (buf : List Nat),
      (charTable width skip buf).data
        = List.replicate skip ' '
          ++ buf.map (fun c => Char.ofNat (charGlyph c))
          ++ List.replicate (width - skip - buf.length) ' ')
    ∧ ∀ b : Fin 256,
        (charGlyph b.val = b.val ↔ (b.val < 0x80 ∧ isPrint b.val = true))
        ∧ (¬(b.val < 0x80 ∧ isPrint b.val = true) → charGlyph b.val = 0x2e) := by
  constructor
  · intro width skip buf
    rfl
  · decide

theorem charColumn_roundTrip_witness :
    charGlyph 0x9f = 0x2e :=
  (charColumn_roundTrip.2 0x9f).2 (by decide)

set_option maxRecDepth 10000 in
/-- C8: dumping the 13 bytes of the Hello, World! text with skip 7 and
length 5 under the defaults (width 16, start 0, canonical style) emits
exactly one line record with offset 0, leading skip 7 and payload World,
rendered with offset column 00000000, seven blank byte slots before the
payload tokens, and the World sidebar. -/
theorem helloWorld_skip7_len5 :
    bytesDump
        [0x48, 0x65, 0x6c, 0x6c, 0x6f, 0x2c, 0x20, 0x57, 0x6f, 0x72, 0x6c, 0x64, 0x21]
        7 5 0 0
      = some ([⟨0, 7, [0x57, 0x6f, 0x72, 0x6c, 0x64]⟩], false)
    ∧ bytesDumpRendered
        [0x48, 0x65, 0x6c, 0x6c, 0x6f, 0x2c, 0x20, 0x57, 0x6f, 0x72, 0x6c, 0x64, 0x21]
        7 5 0 0 DisplayStyle.styleCanonical ByteOrder.little
      = some ("00000000                       57  6f 72 6c 64              |       World    |\n",
          false) := by
  decide

/-- C9 counterexample: the repository defines seven style variants
(values 0 through 6), not six; the value 6 (StyleTwoBytesOctal) lies
outside the first six defined variants, yet formatting a group with it
succeeds rather than panicking. -/
theorem styleDispatch_claim_false :
    (formatGroupGo 6 [0] ByteOrder.little).isSome = true
      ∧ (6 : Int) ∉ ([0, 1, 2, 3, 4, 5] : List Int) := by
  decide

/-- C9 (amended): dispatching formatGroup on the raw integer style value
with a non-empty payload succeeds exactly for the seven defined variants
0..6; every other integer value hits the default branch, a panic (a
fatal condition, not a recoverable error), and under the precondition
that the style is one of the seven defined variants the fatal branch is
unreachable. -/
theorem styleDispatch_fatal (s : Int) (b0 : Nat) (rest : List Nat) (order : ByteOrder) :
    (formatGroupGo s (b0 :: rest) order).isSome = true ↔ 0 ≤ s ∧ s ≤ 6 := by
  simp only [formatGroupGo]
  split_ifs with h0 h1 h2 h3 h4 h5 h6 <;>
    simp [formatGroup_cons_isSome] <;> omega

/-- C10: the Bytes entry point panics on an out-of-range slice (rather
than returning an error or truncating) when the skip count exceeds the
input length, or when a positive length limit exceeds the input length
remaining after the skip; slices are modelled as values, so capacity
equals length. -/
theorem bytesDump_panics (input : List Nat) (skip len width start : Nat)
    (h : input.length < skip
      ∨ (skip ≤ input.length ∧ 0 < len ∧ input.length - skip < len)) :
    bytesDump input skip len width start = none := by
  simp only [bytesDump]
  rcases h with h | ⟨h1, h2, h3⟩
  · rw [if_pos ⟨by omega, h⟩]
  · rw [if_neg (by omega)]
    have hb : (if 0 < skip then input.drop skip else input).length < len := by
      split
      · simp
        omega
      · omega
    rw [if_pos ⟨h2, hb⟩]

theorem bytesDump_panics_witness :
    (([0, 0] : List Nat).length < 3
      ∨ (3 ≤ ([0, 0] : List Nat).length
          ∧ 0 < 0 ∧ ([0, 0] : List Nat).length - 3 < 0))
    ∧ bytesDump [0, 0] 3 0 0 0 = none :=
  ⟨Or.inl (by decide), bytesDump_panics [0, 0] 3 0 0 0 (Or.inl (by decide))⟩

/-- C4 counterexample: one single Flush call on a fresh session already
runs the color resolution step twice — once through the direct d.init()
call at the top of Flush and once through the latch inside flushLines —
refuting that no operation sequence resolves color a second time. -/
theorem colorInit_twice_on_flush :
    ¬((runOps [SessionOp.flushOp]).colorInits ≤ 1) := by
  decide

/-- C4 (amended): across any sequence of Write and Flush calls, the color
resolution step runs exactly once through the once-latch at the first
operation plus once more per Flush call, because Flush invokes init
directly, bypassing the latch; every run recomputes the same decision
from the unchanged environment, so the resolved decision is stable even
though the resolution step re-executes. -/
theorem colorInit_count (ops : List SessionOp) :
    (runOps ops).colorInits = countFlush ops + (if ops = [] then 0 else 1) := by
  cases ops with
  | nil => simp [runOps, countFlush]
  | cons o rest =>
    cases o with
    | writeOp =>
      have h := foldl_colorInits_used rest ⟨true, 1⟩ rfl
      simp only [runOps, List.foldl_cons]
      rw [show stepOp ⟨false, 0⟩ .writeOp = ⟨true, 1⟩ from rfl, h]
      simp [countFlush, List.filter_cons]
      omega
    | flushOp =>
      have h := foldl_colorInits_used rest ⟨true, 2⟩ rfl
      simp only [runOps, List.foldl_cons]
      rw [show stepOp ⟨false, 0⟩ .flushOp = ⟨true, 2⟩ from rfl, h]
      simp [countFlush, List.filter_cons]
      omega

end Hexdump
